import Mathlib

/-!
Shallow embedding of `src/bootstrap_ci.py` (class `BootCI`): bootstrap
resampling, percentile confidence-interval estimation with narrowness-bias
correction, and consecutive-run significance detection.

Conventions of the embedding:
* Exact rationals (`ℚ`) stand for the floating-point data values wherever the
  computation is pure ordered-field arithmetic; the bias-correction step uses
  `Real.sqrt`, so corrected bounds live in `ℝ`.
* The bootstrap matrix handed to `bootstrap_CI` is represented by its list of
  columns (each column a list of `n_boots` entries), since the algorithm sorts
  and indexes column-wise.
* The random draw of `data.sample(n_samples, replace=True)` is supplied as an
  explicit parameter `draw : ℕ → List ℕ` giving, for each bootstrap iteration,
  the list of selected row indices.
* Python exceptions become an `Except CIErr` result; numpy's row indexing
  (negative indices wrap, out-of-range raises `IndexError`) is modelled in
  `rowAt`, and Python's `n_samples / (n_samples - 1)` raises
  `ZeroDivisionError` exactly when the denominator `n_samples - 1` is zero.
-/

instance {e a : Type} [DecidableEq e] [DecidableEq a] : DecidableEq (Except e a)
  | Except.ok x, Except.ok y =>
    if h : x = y then Decidable.isTrue (by rw [h]) else Decidable.isFalse (by simp [h])
  | Except.error x, Except.error y =>
    if h : x = y then Decidable.isTrue (by rw [h]) else Decidable.isFalse (by simp [h])
  | Except.ok _, Except.error _ => Decidable.isFalse (by simp)
  | Except.error _, Except.ok _ => Decidable.isFalse (by simp)

namespace BootCI

/-- Error classes the pipeline can signal (`IndexError` from numpy row
indexing, `ZeroDivisionError` from the bias-factor division). -/
inductive CIErr where
  | indexError
  | zeroDivisionError
deriving DecidableEq, Repr

/-- Per-column mean of the selected rows, i.e. `df.sample(...).mean().values`
for a frame whose selected rows are `rows` and that has `p` columns:
entry `j` is `(sum of row[j] over the selected rows) / (number of rows)`. -/
def meanRows (p : ℕ) (rows : List (List ℚ)) : List ℚ :=
  (List.range p).map fun j =>
    ((rows.map fun r => (r.get? j).getD 0).sum) / (rows.length : ℚ)

/-- `BootCI._bootstrap_resample` (src lines 30-48): for each of `n_boots`
iterations, sample rows of `data` (with replacement, the randomly chosen row
indices of iteration `t` being `draw t`) and keep the per-column mean; the
loop body never validates `n_boots` and raises nothing, so the function is
total. `data` is the list of the `n` subject rows, each of length `p`. -/
def bootstrap_resample (data : List (List ℚ)) (n_boots : ℕ) (draw : ℕ → List ℕ) :
    List (List ℚ) :=
  (List.range n_boots).map fun t =>
    meanRows (data.head?.getD []).length ((draw t).map fun i => (data.get? i).getD [])

/-- `boot_arr.sort(axis=0)` (src line 64): each column sorted ascending.
The matrix is given by its list of columns. -/
def sortCols (cols : List (List ℚ)) : List (List ℚ) :=
  cols.map (List.insertionSort fun a b => a ≤ b)

/-- numpy row indexing `boot_arr[i]` on a matrix with `n_rows` rows given by
its columns `cols`: a nonnegative index must satisfy `i < n_rows`, a negative
index wraps to `n_rows + i`, anything else raises `IndexError`. -/
def rowAt (cols : List (List ℚ)) (n_rows : ℕ) (i : ℤ) : Except CIErr (List ℚ) :=
  if 0 ≤ i ∧ i < (n_rows : ℤ) then
    Except.ok (cols.map fun c => (c.get? i.toNat).getD 0)
  else if 0 ≤ i + (n_rows : ℤ) ∧ i < 0 then
    Except.ok (cols.map fun c => (c.get? (i + (n_rows : ℤ)).toNat).getD 0)
  else
    Except.error CIErr.indexError

/-- src lines 66-70: the raw percentile bounds of the (already column-sorted)
bootstrap matrix: `lower_CI_idx = int(np.ceil(n_boots * (sig / 2)))`,
`upper_CI_idx = int(np.floor(n_boots * (1 - sig / 2)))`,
`ci_lower = boot_arr[lower_CI_idx]`, `ci_upper = boot_arr[upper_CI_idx - 1]`
(the lower row is extracted first, as in the source, so its `IndexError`
wins). `int()` of `np.ceil`/`np.floor` output is exactly `⌈⌉`/`⌊⌋`. -/
def rawCI (sorted : List (List ℚ)) (n_boots : ℕ) (sig : ℚ) :
    Except CIErr (List ℚ × List ℚ) :=
  match rowAt sorted n_boots ⌈(n_boots : ℚ) * (sig / 2)⌉ with
  | Except.error e => Except.error e
  | Except.ok lo =>
    match rowAt sorted n_boots (⌊(n_boots : ℚ) * (1 - sig / 2)⌋ - 1) with
    | Except.error e => Except.error e
    | Except.ok hi => Except.ok (lo, hi)

/-- src lines 74-79: the narrowness-bias correction.
`ci_factor = sqrt(n_samples / (n_samples - 1))`,
`ci_change = ci_factor * (ci_upper - ci_lower) - (ci_upper - ci_lower)`,
stored bounds `ci_lower - ci_change / 2` and `ci_upper + ci_change / 2`,
element-wise over the two length-`p` vectors. -/
noncomputable def ciCorrect (n_samples : ℕ) (lo hi : List ℚ) : List ℝ × List ℝ :=
  let f : ℝ := Real.sqrt ((n_samples : ℝ) / ((n_samples : ℝ) - 1))
  ((lo.zip hi).map fun q =>
      (q.1 : ℝ) - (f * ((q.2 : ℝ) - (q.1 : ℝ)) - ((q.2 : ℝ) - (q.1 : ℝ))) / 2,
   (lo.zip hi).map fun q =>
      (q.2 : ℝ) + (f * ((q.2 : ℝ) - (q.1 : ℝ)) - ((q.2 : ℝ) - (q.1 : ℝ))) / 2)

/-- `BootCI.bootstrap_CI` (src lines 50-79) after the resampling step, taking
the freshly resampled bootstrap matrix `fresh` (as columns). Returns the
matrix stored in `self.boot_samples` after the call — the in-place
column-wise sort happens before any indexing, so it persists even when a
later step raises — together with the `(ci_lower, ci_upper)` result or the
exception. Python's `n_samples / (n_samples - 1)` raises `ZeroDivisionError`
exactly when `n_samples = 1`, after the two row extractions. -/
noncomputable def bootstrap_CI (fresh : List (List ℚ)) (n_boots n_samples : ℕ)
    (sig : ℚ) : List (List ℚ) × Except CIErr (List ℝ × List ℝ) :=
  let sorted := sortCols fresh
  (sorted,
    match rawCI sorted n_boots sig with
    | Except.error e => Except.error e
    | Except.ok pr =>
      if n_samples = 1 then Except.error CIErr.zeroDivisionError
      else Except.ok (ciCorrect n_samples pr.1 pr.2))

/-- `Except.ok`-ness, to state "no exception is signalled". -/
def exceptOk {e a : Type} : Except e a → Bool
  | Except.ok _ => true
  | Except.error _ => false

/-! ### Helper lemmas about the index computation -/

/-- Unfolding `rawCI` once the two integer cutoffs are known. -/
theorem rawCI_eq_of (sorted : List (List ℚ)) (B : ℕ) (sig : ℚ) (L U : ℤ)
    (hL : ⌈(B : ℚ) * (sig / 2)⌉ = L) (hU : ⌊(B : ℚ) * (1 - sig / 2)⌋ = U) :
    rawCI sorted B sig =
      match rowAt sorted B L with
      | Except.error e => Except.error e
      | Except.ok lo =>
        match rowAt sorted B (U - 1) with
        | Except.error e => Except.error e
        | Except.ok hi => Except.ok (lo, hi) := by
  unfold rawCI
  rw [hL, hU]

/-- For `n_boots = B ≥ 2` and `sig ∈ (0,1)` both cutoff positions are valid
zero-based positions `0 ≤ L, U - 1 ≤ B - 1`. -/
theorem cutoffs_in_range (B : ℕ) (sig : ℚ) (hB : 2 ≤ B) (h0 : 0 < sig)
    (h1 : sig < 1) :
    (0 ≤ ⌈(B : ℚ) * (sig / 2)⌉ ∧ ⌈(B : ℚ) * (sig / 2)⌉ < (B : ℤ)) ∧
    (0 ≤ ⌊(B : ℚ) * (1 - sig / 2)⌋ - 1 ∧ ⌊(B : ℚ) * (1 - sig / 2)⌋ - 1 < (B : ℤ)) := by
  have hB2 : (2 : ℚ) ≤ (B : ℚ) := by exact_mod_cast hB
  refine ⟨⟨Int.ceil_nonneg (by positivity), ?_⟩, ⟨?_, ?_⟩⟩
  · have hle : (B : ℚ) * (sig / 2) ≤ (((B : ℤ) - 1 : ℤ) : ℚ) := by
      push_cast
      nlinarith
    have := Int.ceil_le.mpr hle
    omega
  · have hge : (1 : ℚ) ≤ (B : ℚ) * (1 - sig / 2) := by nlinarith
    have := Int.le_floor.mpr (by exact_mod_cast hge : ((1 : ℤ) : ℚ) ≤ (B : ℚ) * (1 - sig / 2))
    omega
  · have hlt : (B : ℚ) * (1 - sig / 2) < (B : ℚ) := by nlinarith
    have := Int.floor_le ((B : ℚ) * (1 - sig / 2))
    have hfl : (⌊(B : ℚ) * (1 - sig / 2)⌋ : ℚ) < (B : ℚ) := lt_of_le_of_lt this hlt
    have : ⌊(B : ℚ) * (1 - sig / 2)⌋ < (B : ℤ) := by exact_mod_cast hfl
    omega

/-- For `n_boots = B ≤ 1` and `sig ∈ (0,1)` the lower cutoff equals `B`,
which is out of range, so the first row extraction already raises. -/
theorem rawCI_small_B (sorted : List (List ℚ)) (B : ℕ) (sig : ℚ) (hB : B ≤ 1)
    (h0 : 0 < sig) (h1 : sig < 1) :
    rawCI sorted B sig = Except.error CIErr.indexError := by
  have hL : ⌈(B : ℚ) * (sig / 2)⌉ = (B : ℤ) := by
    interval_cases B
    · simp
    · rw [Int.ceil_eq_iff] <;> push_cast <;> constructor <;> linarith
  unfold rawCI
  rw [hL]
  unfold rowAt
  have hc1 : ¬ (0 ≤ (B : ℤ) ∧ (B : ℤ) < (B : ℤ)) := by omega
  have hc2 : ¬ (0 ≤ (B : ℤ) + (B : ℤ) ∧ (B : ℤ) < 0) := by omega
  rw [if_neg hc1, if_neg hc2]


/-! ### C1: raw percentile positions -/

/-- C1: for a bootstrap matrix of `B` rows (column-wise sorted ascending) and
a significance level `sig ∈ (0,1)`, whenever the estimator produces raw
bounds, the raw lower bound of each column is the entry at zero-based
position `⌈B * sig / 2⌉` of the sorted column and the raw upper bound is the
entry at position `⌊B * (1 - sig / 2)⌋ - 1`: the upper index is adjusted one
position inward while the lower index is not. -/
theorem claim_C1 (sorted : List (List ℚ)) (B : ℕ) (sig : ℚ) (lo hi : List ℚ)
    (hwf : ∀ c ∈ sorted, c.length = B)
    (hsorted : ∀ c ∈ sorted, c.Sorted (· ≤ ·))
    (h0 : 0 < sig) (h1 : sig < 1)
    (hok : rawCI sorted B sig = Except.ok (lo, hi)) :
    ∀ j c, sorted.get? j = some c →
      lo.get? j = c.get? (⌈(B : ℚ) * (sig / 2)⌉).toNat ∧
      hi.get? j = c.get? (⌊(B : ℚ) * (1 - sig / 2)⌋.toNat - 1) := by
  rcases le_or_lt B 1 with hB | hB
  · rw [rawCI_small_B sorted B sig hB h0 h1] at hok
    exact absurd hok (by simp)
  have hB2 : 2 ≤ B := hB
  obtain ⟨⟨hL0, hLB⟩, hU0, hUB⟩ := cutoffs_in_range B sig hB2 h0 h1
  unfold rawCI rowAt at hok
  rw [if_pos ⟨hL0, hLB⟩, if_pos ⟨hU0, hUB⟩] at hok
  simp only [Except.ok.injEq, Prod.mk.injEq] at hok
  obtain ⟨hlo, hhi⟩ := hok
  intro j c hc
  have hmem : c ∈ sorted := List.get?_mem hc
  have hlen : c.length = B := hwf c hmem
  have hLnat : (⌈(B : ℚ) * (sig / 2)⌉).toNat < c.length := by omega
  have hUnat : (⌊(B : ℚ) * (1 - sig / 2)⌋ - 1).toNat < c.length := by omega
  have hUnat2 : ⌊(B : ℚ) * (1 - sig / 2)⌋.toNat - 1 < c.length := by omega
  constructor
  · rw [← hlo, List.get?_map, hc]
    simp [List.getElem?_eq_getElem hLnat]
  · have hsub : (⌊(B : ℚ) * (1 - sig / 2)⌋ - 1).toNat =
        ⌊(B : ℚ) * (1 - sig / 2)⌋.toNat - 1 := by omega
    rw [← hhi, List.get?_map, hc, hsub]
    simp [List.getElem?_eq_getElem hUnat2]

/-- Witness for C1 at a concrete input: `B = 4`, `sig = 1/2`,
sorted matrix with single column `[0,1,2,3]`; positions `1` and `3 - 1 = 2`. -/
theorem claim_C1_witness :
    List.Sorted (fun a b => a ≤ b) ([0, 1, 2, 3] : List ℚ) ∧
    rawCI [[0, 1, 2, 3]] 4 (1 / 2) = Except.ok ([1], [2]) ∧
    ([1] : List ℚ).get? 0 = ([0, 1, 2, 3] : List ℚ).get? (⌈(4 : ℚ) * ((1 / 2) / 2)⌉).toNat ∧
    ([2] : List ℚ).get? 0 =
      ([0, 1, 2, 3] : List ℚ).get? (⌊(4 : ℚ) * (1 - (1 / 2) / 2)⌋.toNat - 1) := by
  have hok : rawCI [[0, 1, 2, 3]] 4 (1 / 2) = Except.ok ([1], [2]) := by
    rw [rawCI_eq_of _ _ _ 1 3 (by rw [Int.ceil_eq_iff]; norm_num) (by norm_num)]
    decide
  have hs : List.Sorted (fun a b => a ≤ b) ([0, 1, 2, 3] : List ℚ) := by decide
  have happ := claim_C1 [[0, 1, 2, 3]] 4 (1 / 2) [1] [2]
    (by intro c hc; simp at hc; subst hc; rfl)
    (by intro c hc; simp at hc; subst hc; exact hs)
    (by norm_num) (by norm_num) hok 0 [0, 1, 2, 3] rfl
  exact ⟨hs, hok, happ.1, happ.2⟩

/-! ### C5: out-of-range cutoff positions raise IndexError -/

/-- C5: for every `n_boots` and `sig ∈ (0,1)` for which a computed percentile
cutoff position falls outside the valid zero-based positions
`0 .. n_boots - 1`, the interval estimator signals `IndexError` rather than
silently clamping or selecting a different element. -/
theorem claim_C5 (fresh : List (List ℚ)) (B n_samples : ℕ) (sig : ℚ)
    (h0 : 0 < sig) (h1 : sig < 1)
    (hout : ¬ (0 ≤ ⌈(B : ℚ) * (sig / 2)⌉ ∧ ⌈(B : ℚ) * (sig / 2)⌉ < (B : ℤ)) ∨
      ¬ (0 ≤ ⌊(B : ℚ) * (1 - sig / 2)⌋ - 1 ∧ ⌊(B : ℚ) * (1 - sig / 2)⌋ - 1 < (B : ℤ))) :
    (bootstrap_CI fresh B n_samples sig).2 = Except.error CIErr.indexError := by
  have hB : B ≤ 1 := by
    by_contra hBc
    push_neg at hBc
    obtain ⟨hin1, hin2⟩ := cutoffs_in_range B sig hBc h0 h1
    rcases hout with h | h
    · exact h hin1
    · exact h hin2
  show (bootstrap_CI fresh B n_samples sig).2 = Except.error CIErr.indexError
  unfold bootstrap_CI
  dsimp only
  rw [rawCI_small_B _ B sig hB h0 h1]

/-- Witness for C5: `n_boots = 1`, `sig = 1/2`: the lower cutoff position
`⌈1 * 1/4⌉ = 1` is outside `0..0`, and the estimator raises `IndexError`. -/
theorem claim_C5_witness :
    (0 : ℚ) < 1 / 2 ∧ (1 / 2 : ℚ) < 1 ∧
    ¬ (0 ≤ ⌈(1 : ℚ) * ((1 / 2) / 2)⌉ ∧ ⌈(1 : ℚ) * ((1 / 2) / 2)⌉ < ((1 : ℕ) : ℤ)) ∧
    (bootstrap_CI [[5]] 1 3 (1 / 2)).2 = Except.error CIErr.indexError := by
  have hceil : (⌈(1 : ℚ) * ((1 / 2) / 2)⌉ : ℤ) = 1 := by
    rw [Int.ceil_eq_iff]
    norm_num
  have hout : ¬ (0 ≤ ⌈(1 : ℚ) * ((1 / 2) / 2)⌉ ∧ ⌈(1 : ℚ) * ((1 / 2) / 2)⌉ < ((1 : ℕ) : ℤ)) := by
    rw [hceil]
    omega
  exact ⟨by norm_num, by norm_num, hout,
    claim_C5 [[5]] 1 3 (1 / 2) (by norm_num) (by norm_num) (Or.inl hout)⟩

/-! ### C6: the resampler performs no argument validation -/

/-- C6 counterexample: with `n_boots = 0` on a 2-row table the resampler
produces the empty bootstrap matrix instead of signalling an
`InvalidArgument`-class error (the source loop `for _ in range(n_boots)`
simply runs zero times and `self.boot_samples` is set to an empty array). -/
theorem claim_C6_counterexample :
    bootstrap_resample [[1, 2], [3, 4]] 0 (fun _ => [0, 0]) = [] := by
  simp [bootstrap_resample]

/-- C6 amended: `_bootstrap_resample` performs no validation at all; for
`n_boots = 0` (and any non-positive count, since `range` is then empty) it
silently stores an empty bootstrap matrix and signals nothing. -/
theorem claim_C6_amended (data : List (List ℚ)) (draw : ℕ → List ℕ) :
    bootstrap_resample data 0 draw = [] := by
  simp [bootstrap_resample]

/-! ### C7: division by zero in the bias factor -/

/-- C7 counterexample: with `n_samples = 0` (a zero-row table) the
interval-estimation operation does **not** signal a `DomainError`: Python
computes `0 / (0 - 1) = -0.0`, a defined value, so no `ZeroDivisionError` is
raised at the bias step (the claim asserts an error for every `n ≤ 1`).
The bootstrap-matrix values are irrelevant to which exceptions are raised. -/
theorem claim_C7_counterexample :
    exceptOk (bootstrap_CI [[1, 2, 3, 4]] 4 0 (1 / 2)).2 = true := by
  have hok : rawCI (sortCols [[1, 2, 3, 4]]) 4 (1 / 2) = Except.ok ([2], [3]) := by
    rw [show sortCols [[1, 2, 3, 4]] = [[1, 2, 3, 4]] from by decide,
      rawCI_eq_of _ _ _ 1 3 (by rw [Int.ceil_eq_iff]; norm_num) (by norm_num)]
    decide
  unfold bootstrap_CI
  dsimp only
  rw [hok]
  rfl

/-- C7 amended: only `n_samples = 1` makes the bias-factor denominator zero;
then (and whenever the preceding row extractions succeeded, as they are
evaluated first) `bootstrap_CI` signals the `ZeroDivisionError`-class
(`DomainError`) failure. -/
theorem claim_C7_amended (fresh : List (List ℚ)) (B : ℕ) (sig : ℚ)
    (pr : List ℚ × List ℚ)
    (hraw : rawCI (sortCols fresh) B sig = Except.ok pr) :
    (bootstrap_CI fresh B 1 sig).2 = Except.error CIErr.zeroDivisionError := by
  unfold bootstrap_CI
  dsimp only
  rw [hraw]
  rfl

/-- Witness for the amended C7: a concrete 1-subject run raises the
division error. -/
theorem claim_C7_amended_witness :
    rawCI (sortCols [[1, 2, 3, 4]]) 4 (1 / 2) = Except.ok ([2], [3]) ∧
    (bootstrap_CI [[1, 2, 3, 4]] 4 1 (1 / 2)).2 = Except.error CIErr.zeroDivisionError := by
  have hok : rawCI (sortCols [[1, 2, 3, 4]]) 4 (1 / 2) = Except.ok ([2], [3]) := by
    rw [show sortCols [[1, 2, 3, 4]] = [[1, 2, 3, 4]] from by decide,
      rawCI_eq_of _ _ _ 1 3 (by rw [Int.ceil_eq_iff]; norm_num) (by norm_num)]
    decide
  exact ⟨hok, claim_C7_amended [[1, 2, 3, 4]] 4 (1 / 2) ([2], [3]) hok⟩

/-! ### C8: sig outside (0,1) is not validated -/

/-- C8 counterexample: at `sig = 0` (outside `(0,1)`) with `n_boots = 4` and
`n_samples = 2` the interval estimator proceeds without any error: the
cutoff positions degenerate to `0` and `n_boots - 1` and the computation
returns bounds; no `InvalidArgument`-class error is signalled. -/
theorem claim_C8_counterexample :
    exceptOk (bootstrap_CI [[1, 2, 3, 4]] 4 2 0).2 = true := by
  have hok : rawCI (sortCols [[1, 2, 3, 4]]) 4 0 = Except.ok ([1], [4]) := by
    rw [show sortCols [[1, 2, 3, 4]] = [[1, 2, 3, 4]] from by decide,
      rawCI_eq_of _ _ _ 0 4 (by norm_num) (by norm_num)]
    decide
  unfold bootstrap_CI
  dsimp only
  rw [hok]
  rfl

/-- C8 amended: `bootstrap_CI` performs no validation of `sig`; a `sig`
outside `(0,1)` does not signal an `InvalidArgument`-class error. In
particular `sig = 0` succeeds for every `n_boots ≥ 1` and every
`n_samples ≠ 1` (the cutoff positions degenerate to `0` and `n_boots - 1`);
a failure can only surface later as an `IndexError` when a computed position
falls outside numpy's index range. -/
theorem claim_C8_amended (fresh : List (List ℚ)) (B n_samples : ℕ)
    (hB : 1 ≤ B) (hn : n_samples ≠ 1) :
    exceptOk (bootstrap_CI fresh B n_samples 0).2 = true := by
  have hL : (⌈(B : ℚ) * ((0 : ℚ) / 2)⌉ : ℤ) = 0 := by norm_num
  have hU : (⌊(B : ℚ) * (1 - (0 : ℚ) / 2)⌋ : ℤ) = (B : ℤ) := by
    norm_num
  unfold bootstrap_CI
  dsimp only
  rw [rawCI_eq_of _ _ _ 0 (B : ℤ) hL hU]
  unfold rowAt
  rw [if_pos (by omega : (0 : ℤ) ≤ 0 ∧ (0 : ℤ) < (B : ℤ)),
    if_pos (by omega : (0 : ℤ) ≤ (B : ℤ) - 1 ∧ (B : ℤ) - 1 < (B : ℤ))]
  simp [exceptOk, hn]

/-- Witness for the amended C8 at `n_boots = 1`, `n_samples = 2`. -/
theorem claim_C8_amended_witness :
    1 ≤ 1 ∧ (2 : ℕ) ≠ 1 ∧ exceptOk (bootstrap_CI [[7]] 1 2 0).2 = true :=
  ⟨le_refl 1, by omega, claim_C8_amended [[7]] 1 2 (le_refl 1) (by omega)⟩

/-! ### C2 and C9: the narrowness-bias correction -/

/-- On a successful raw-bound extraction with `n_samples ≠ 1`,
`bootstrap_CI` returns the bias-corrected bounds. -/
theorem bootstrap_CI_ok (fresh : List (List ℚ)) (B n : ℕ) (sig : ℚ)
    (lo hi : List ℚ)
    (hraw : rawCI (sortCols fresh) B sig = Except.ok (lo, hi)) (hn : n ≠ 1) :
    (bootstrap_CI fresh B n sig).2 = Except.ok (ciCorrect n lo hi) := by
  unfold bootstrap_CI
  dsimp only
  rw [hraw]
  simp [hn]

/-- Positional lookup in a zip of two lists. -/
theorem get?_zip_of {α β : Type} (l : List α) (l2 : List β) (j : ℕ) (a : α)
    (b : β) (ha : l.get? j = some a) (hb : l2.get? j = some b) :
    (l.zip l2).get? j = some (a, b) := by
  induction l generalizing l2 j with
  | nil => simp at ha
  | cons x xs ih =>
    cases l2 with
    | nil => simp at hb
    | cons y ys =>
      cases j with
      | zero =>
        rw [List.get?_cons_zero] at ha hb
        injection ha with ha2
        injection hb with hb2
        subst ha2
        subst hb2
        rfl
      | succ k =>
        rw [List.get?_cons_succ] at ha hb
        rw [List.zip_cons_cons, List.get?_cons_succ]
        exact ih ys k ha hb

/-- The per-column values produced by `ciCorrect`. -/
theorem ciCorrect_get? (n : ℕ) (lo hi : List ℚ) (j : ℕ) (l h : ℚ)
    (hl : lo.get? j = some l) (hh : hi.get? j = some h) :
    (ciCorrect n lo hi).1.get? j =
      some ((l : ℝ) - (Real.sqrt ((n : ℝ) / ((n : ℝ) - 1)) * ((h : ℝ) - (l : ℝ)) -
        ((h : ℝ) - (l : ℝ))) / 2) ∧
    (ciCorrect n lo hi).2.get? j =
      some ((h : ℝ) + (Real.sqrt ((n : ℝ) / ((n : ℝ) - 1)) * ((h : ℝ) - (l : ℝ)) -
        ((h : ℝ) - (l : ℝ))) / 2) := by
  have hz := get?_zip_of lo hi j l h hl hh
  unfold ciCorrect
  dsimp only
  constructor
  · rw [List.get?_map, hz]
    rfl
  · rw [List.get?_map, hz]
    rfl

/-- C2: per column `j`, given raw percentile bounds `l = ci_lower[j]`,
`h = ci_upper[j]` and original subject count `n ≥ 2`, the final bounds equal
`l - delta` and `h + delta` with
`delta = ((sqrt(n/(n-1)) - 1) * (h - l)) / 2`: each interval is widened
symmetrically about its center by the factor `sqrt(n/(n-1))`, with `n` the
number of input rows (a parameter distinct from `n_boots = B`). -/
theorem claim_C2 (fresh : List (List ℚ)) (B n : ℕ) (sig : ℚ)
    (lo hi : List ℚ) (j : ℕ) (l h : ℚ)
    (hraw : rawCI (sortCols fresh) B sig = Except.ok (lo, hi)) (hn : 2 ≤ n)
    (hl : lo.get? j = some l) (hh : hi.get? j = some h) :
    ∃ L H : List ℝ, (bootstrap_CI fresh B n sig).2 = Except.ok (L, H) ∧
      L.get? j = some ((l : ℝ) -
        ((Real.sqrt ((n : ℝ) / ((n : ℝ) - 1)) - 1) * ((h : ℝ) - (l : ℝ))) / 2) ∧
      H.get? j = some ((h : ℝ) +
        ((Real.sqrt ((n : ℝ) / ((n : ℝ) - 1)) - 1) * ((h : ℝ) - (l : ℝ))) / 2) := by
  refine ⟨(ciCorrect n lo hi).1, (ciCorrect n lo hi).2,
    bootstrap_CI_ok fresh B n sig lo hi hraw (by omega), ?_, ?_⟩
  · rw [(ciCorrect_get? n lo hi j l h hl hh).1]
    exact congrArg some (by ring)
  · rw [(ciCorrect_get? n lo hi j l h hl hh).2]
    exact congrArg some (by ring)

/-- Witness for C2: `B = 4`, `sig = 1/2`, one column sorting to
`[0,1,2,3]`, raw bounds `1` and `2`, `n = 2`. -/
theorem claim_C2_witness :
    rawCI (sortCols [[1, 0, 3, 2]]) 4 (1 / 2) = Except.ok ([1], [2]) ∧ 2 ≤ 2 ∧
    (∃ L H : List ℝ, (bootstrap_CI [[1, 0, 3, 2]] 4 2 (1 / 2)).2 = Except.ok (L, H) ∧
      L.get? 0 = some (((1 : ℚ) : ℝ) -
        ((Real.sqrt (((2 : ℕ) : ℝ) / (((2 : ℕ) : ℝ) - 1)) - 1) *
          (((2 : ℚ) : ℝ) - ((1 : ℚ) : ℝ))) / 2) ∧
      H.get? 0 = some (((2 : ℚ) : ℝ) +
        ((Real.sqrt (((2 : ℕ) : ℝ) / (((2 : ℕ) : ℝ) - 1)) - 1) *
          (((2 : ℚ) : ℝ) - ((1 : ℚ) : ℝ))) / 2)) := by
  have hok : rawCI (sortCols [[1, 0, 3, 2]]) 4 (1 / 2) = Except.ok ([1], [2]) := by
    rw [show sortCols [[1, 0, 3, 2]] = [[0, 1, 2, 3]] from by decide,
      rawCI_eq_of _ _ _ 1 3 (by rw [Int.ceil_eq_iff]; norm_num) (by norm_num)]
    decide
  exact ⟨hok, le_refl 2,
    claim_C2 [[1, 0, 3, 2]] 4 2 (1 / 2) [1] [2] 0 1 2 hok (le_refl 2) rfl rfl⟩

/-- C9: per column `j`, for `n ≥ 2`, if the uncorrected bounds satisfy
`l ≤ h` then the post-correction bounds also satisfy lower ≤ upper: the
narrowness-bias correction only widens each interval symmetrically. -/
theorem claim_C9 (fresh : List (List ℚ)) (B n : ℕ) (sig : ℚ)
    (lo hi : List ℚ) (j : ℕ) (l h : ℚ)
    (hraw : rawCI (sortCols fresh) B sig = Except.ok (lo, hi)) (hn : 2 ≤ n)
    (hl : lo.get? j = some l) (hh : hi.get? j = some h) (hle : l ≤ h) :
    ∃ L H : List ℝ, (bootstrap_CI fresh B n sig).2 = Except.ok (L, H) ∧
      ∀ x y : ℝ, L.get? j = some x → H.get? j = some y → x ≤ y := by
  refine ⟨(ciCorrect n lo hi).1, (ciCorrect n lo hi).2,
    bootstrap_CI_ok fresh B n sig lo hi hraw (by omega), ?_⟩
  intro x y hx hy
  rw [(ciCorrect_get? n lo hi j l h hl hh).1] at hx
  rw [(ciCorrect_get? n lo hi j l h hl hh).2] at hy
  have hx2 := Option.some.inj hx
  have hy2 := Option.some.inj hy
  have hn1 : (1 : ℝ) ≤ (n : ℝ) - 1 := by
    have : (2 : ℝ) ≤ (n : ℝ) := by exact_mod_cast hn
    linarith
  have hdiv : (1 : ℝ) ≤ (n : ℝ) / ((n : ℝ) - 1) := by
    rw [le_div_iff (by linarith)]
    linarith
  have hf : (1 : ℝ) ≤ Real.sqrt ((n : ℝ) / ((n : ℝ) - 1)) :=
    Real.one_le_sqrt.mpr hdiv
  have hlh : ((l : ℚ) : ℝ) ≤ ((h : ℚ) : ℝ) := by exact_mod_cast hle
  nlinarith [hx2, hy2]

/-- Witness for C9 at the same concrete input as C2's but phrased through
the existential ordering conclusion. -/
theorem claim_C9_witness :
    rawCI (sortCols [[2, 0, 3, 1]]) 4 (1 / 2) = Except.ok ([1], [2]) ∧ 2 ≤ 2 ∧
    (1 : ℚ) ≤ 2 ∧
    (∃ L H : List ℝ, (bootstrap_CI [[2, 0, 3, 1]] 4 2 (1 / 2)).2 = Except.ok (L, H) ∧
      ∀ x y : ℝ, L.get? 0 = some x → H.get? 0 = some y → x ≤ y) := by
  have hok : rawCI (sortCols [[2, 0, 3, 1]]) 4 (1 / 2) = Except.ok ([1], [2]) := by
    rw [show sortCols [[2, 0, 3, 1]] = [[0, 1, 2, 3]] from by decide,
      rawCI_eq_of _ _ _ 1 3 (by rw [Int.ceil_eq_iff]; norm_num) (by norm_num)]
    decide
  exact ⟨hok, le_refl 2, by norm_num,
    claim_C9 [[2, 0, 3, 1]] 4 2 (1 / 2) [1] [2] 0 1 2 hok (le_refl 2) rfl rfl
      (by norm_num)⟩

/-! ### C10: the stored bootstrap matrix is mutated by the in-place sort -/

/-- C10: after every call to `bootstrap_CI` the stored bootstrap matrix
(`self.boot_samples`, aliased by `boot_arr` and sorted in place at line 64)
is the column-wise ascending sort of the freshly resampled matrix: every
retained column is sorted, and is a permutation (a reordering, not a copy)
of the corresponding fresh column — so the rows of the retained matrix no
longer correspond to individual bootstrap draws. -/
theorem claim_C10 (fresh : List (List ℚ)) (B n : ℕ) (sig : ℚ) :
    (bootstrap_CI fresh B n sig).1 = sortCols fresh ∧
    (∀ col ∈ (bootstrap_CI fresh B n sig).1, col.Sorted (fun a b => a ≤ b)) ∧
    (∀ j c, fresh.get? j = some c →
      ∃ c2, (bootstrap_CI fresh B n sig).1.get? j = some c2 ∧ c.Perm c2) := by
  refine ⟨rfl, ?_, ?_⟩
  · intro col hcol
    unfold bootstrap_CI sortCols at hcol
    dsimp only at hcol
    obtain ⟨c, hc, rfl⟩ := List.mem_map.mp hcol
    exact List.sorted_insertionSort _ c
  · intro j c hc
    refine ⟨List.insertionSort (fun a b => a ≤ b) c, ?_,
      (List.perm_insertionSort _ c).symm⟩
    unfold bootstrap_CI sortCols
    dsimp only
    rw [List.get?_map, hc]
    rfl

/-- Witness for C10 at a concrete unsorted one-column matrix `[[2, 1]]`. -/
theorem claim_C10_witness :
    (bootstrap_CI [[2, 1]] 2 2 (1 / 2)).1 = sortCols [[2, 1]] ∧
    (∀ col ∈ (bootstrap_CI [[2, 1]] 2 2 (1 / 2)).1, col.Sorted (fun a b => a ≤ b)) ∧
    (∀ j c, ([[2, 1]] : List (List ℚ)).get? j = some c →
      ∃ c2, (bootstrap_CI [[2, 1]] 2 2 (1 / 2)).1.get? j = some c2 ∧ c.Perm c2) :=
  claim_C10 [[2, 1]] 2 2 (1 / 2)

/-! ### The event detector (`BootCI.get_sig_events`, src lines 81-109) -/

/-- `itertools.groupby(range(len(arr)), key)` specialised to the source's
use: partition the index sequence `i, i+1, ...` (one index per entry of
`keys`) into maximal runs of consecutive indices sharing the same key,
returning each run together with its key, in order. -/
def groupIdx : List Bool → ℕ → List (Bool × List ℕ)
  | [], _ => []
  | b :: bs, i =>
    match groupIdx bs (i + 1) with
    | [] => [(b, [i])]
    | (k, g) :: rest =>
      if b = k then (b, i :: g) :: rest else (b, [i]) :: (k, g) :: rest

/-- One direction of the detector (src lines 100-109): group the indices of
`arr` by the boolean key `arr[x] > threshold`, then keep the groups whose
key is true and whose length is strictly greater than `num_consec`. -/
def sigRuns (arr : List ℚ) (num_consec : ℕ) (threshold : ℚ) : List (List ℕ) :=
  ((groupIdx (arr.map fun x => decide (threshold < x)) 0).filter
    (fun q => q.1 && decide (num_consec < q.2.length))).map Prod.snd

/-- `BootCI.get_sig_events` (src lines 81-109): the `"lower"` entry runs the
detection on `ci_lower`, the `"upper"` entry on `-ci_upper` (values inverted
to reuse the same thresholding, src line 99). -/
def get_sig_events (ci_lower ci_upper : List ℚ) (num_consec : ℕ)
    (threshold : ℚ) : List (List ℕ) × List (List ℕ) :=
  (sigRuns ci_lower num_consec threshold,
   sigRuns (ci_upper.map fun x => -x) num_consec threshold)

/-- `MaxRun keys k a len`: positions `a, ..., a + len - 1` of `keys` form a
maximal run of the key value `k`: the run is nonempty, lies inside `keys`,
carries `k` everywhere, and is flanked on each existing side by `!k`. -/
def MaxRun (keys : List Bool) (k : Bool) (a len : ℕ) : Prop :=
  0 < len ∧ a + len ≤ keys.length ∧
  (∀ j, j < len → keys.get? (a + j) = some k) ∧
  (a = 0 ∨ keys.get? (a - 1) = some (!k)) ∧
  (a + len = keys.length ∨ keys.get? (a + len) = some (!k))

/-- The defining equation of `groupIdx` on a nonempty key list. -/
theorem groupIdx_cons (b : Bool) (bs : List Bool) (i : ℕ) :
    groupIdx (b :: bs) i =
      match groupIdx bs (i + 1) with
      | [] => [(b, [i])]
      | (k, g) :: rest =>
        if b = k then (b, i :: g) :: rest else (b, [i]) :: (k, g) :: rest := rfl

/-- Structure of `groupIdx` on a nonempty key list: it starts with the
maximal constant-key run at the head and continues with the grouping of the
rest. -/
theorem groupIdx_first (bs : List Bool) (b : Bool) (i : ℕ) :
    ∃ L, 0 < L ∧ L ≤ (b :: bs).length ∧
      groupIdx (b :: bs) i =
        (b, List.range' i L) :: groupIdx (List.drop L (b :: bs)) (i + L) ∧
      (∀ j, j < L → (b :: bs).get? j = some b) ∧
      (L = (b :: bs).length ∨ (b :: bs).get? L = some (!b)) := by
  induction bs generalizing b i with
  | nil =>
    refine ⟨1, one_pos, le_refl 1, ?_, ?_, Or.inl rfl⟩
    · rfl
    · intro j hj
      interval_cases j
      rfl
  | cons c bs2 ih =>
    obtain ⟨L2, hL2pos, hL2le, heq, hall, hbound⟩ := ih c (i + 1)
    by_cases hbc : b = c
    · subst hbc
      refine ⟨L2 + 1, Nat.succ_pos L2, by simpa using hL2le, ?_, ?_, ?_⟩
      · rw [groupIdx_cons, heq]
        dsimp only
        rw [if_pos rfl, List.range'_succ]
        have hdrop : List.drop (L2 + 1) (b :: b :: bs2) = List.drop L2 (b :: bs2) := rfl
        rw [hdrop, show i + (L2 + 1) = i + 1 + L2 by omega]
      · intro j hj
        cases j with
        | zero => rfl
        | succ j2 => exact hall j2 (by omega)
      · rcases hbound with h | h
        · exact Or.inl (by simp [h])
        · exact Or.inr h
    · refine ⟨1, one_pos, by simp, ?_, ?_, ?_⟩
      · show groupIdx (b :: c :: bs2) i = (b, [i]) :: groupIdx (c :: bs2) (i + 1)
        rw [groupIdx_cons, heq]
        dsimp only
        rw [if_neg hbc, ← heq]
      · intro j hj
        interval_cases j
        rfl
      · refine Or.inr ?_
        have : c = !b := by
          cases b <;> cases c <;> simp_all
        simp [this]

/-- A maximal run of the tail `List.drop L1 keys`, where the first `L1`
entries of `keys` all carry key `b` and position `L1` (if it exists) does
not, is a maximal run of `keys` shifted by `L1`. -/
theorem MaxRun_drop (keys : List Bool) (b k : Bool) (L1 a L : ℕ)
    (hL1le : L1 ≤ keys.length)
    (hall : ∀ j, j < L1 → keys.get? j = some b)
    (hbound : L1 = keys.length ∨ keys.get? L1 = some (!b))
    (hmr : MaxRun (List.drop L1 keys) k a L) :
    MaxRun keys k (L1 + a) L := by
  obtain ⟨hpos, hlen, hkey, hleft, hright⟩ := hmr
  rw [List.length_drop] at hlen
  refine ⟨hpos, by omega, ?_, ?_, ?_⟩
  · intro j hj
    have h := hkey j hj
    rwa [List.get?_drop, ← Nat.add_assoc] at h
  · cases a with
    | zero =>
      cases Nat.eq_zero_or_pos L1 with
      | inl h0 => exact Or.inl (by omega)
      | inr hpos1 =>
        refine Or.inr ?_
        have hk0 := hkey 0 hpos
        rw [List.get?_drop, Nat.add_zero] at hk0
        rcases hbound with h | h
        · omega
        · have hkb : k = !b := by
            rw [h] at hk0
            exact (Option.some.inj hk0).symm
          rw [show L1 + 0 - 1 = L1 - 1 by omega, hall (L1 - 1) (by omega), hkb]
          simp
    | succ a2 =>
      rcases hleft with h | h
      · omega
      · refine Or.inr ?_
        rw [List.get?_drop] at h
        rw [show L1 + (a2 + 1) - 1 = L1 + (a2 + 1 - 1) by omega]
        exact h
  · rcases hright with h | h
    · rw [List.length_drop] at h
      exact Or.inl (by omega)
    · refine Or.inr ?_
      rw [List.get?_drop, ← Nat.add_assoc] at h
      exact h

/-- Conversely, a maximal run of `keys` that starts at or beyond `L1` is a
maximal run of `List.drop L1 keys`. -/
theorem MaxRun_drop_rev (keys : List Bool) (k : Bool) (L1 a2 L : ℕ)
    (hL1le : L1 ≤ keys.length)
    (hmr : MaxRun keys k (L1 + a2) L) :
    MaxRun (List.drop L1 keys) k a2 L := by
  obtain ⟨hpos, hlen, hkey, hleft, hright⟩ := hmr
  refine ⟨hpos, ?_, ?_, ?_, ?_⟩
  · rw [List.length_drop]
    omega
  · intro j hj
    rw [List.get?_drop, ← Nat.add_assoc]
    exact hkey j hj
  · cases a2 with
    | zero => exact Or.inl rfl
    | succ c =>
      rcases hleft with h | h
      · omega
      · refine Or.inr ?_
        rw [List.get?_drop, show L1 + (c + 1 - 1) = L1 + (c + 1) - 1 by omega]
        exact h
  · rcases hright with h | h
    · refine Or.inl ?_
      rw [List.length_drop]
      omega
    · refine Or.inr ?_
      rw [List.get?_drop, ← Nat.add_assoc]
      exact h

/-- Membership characterisation of `groupIdx`: the groups are exactly the
maximal constant-key runs of `keys`, with their contiguous increasing index
lists shifted by the starting index `i`. -/
theorem groupIdx_mem_iff (keys : List Bool) (i : ℕ) (k : Bool) (g : List ℕ) :
    (k, g) ∈ groupIdx keys i ↔
      ∃ a L, g = List.range' (i + a) L ∧ MaxRun keys k a L := by
  cases keys with
  | nil =>
    constructor
    · intro h
      simp [groupIdx] at h
    · rintro ⟨a, L, hg, hpos, hlen, -⟩
      simp at hlen
      omega
  | cons b bs =>
    obtain ⟨L1, hL1pos, hL1le, heq, hall, hbound⟩ := groupIdx_first bs b i
    rw [heq, List.mem_cons]
    constructor
    · rintro (h1 | h2)
      · obtain ⟨hk, hg⟩ := Prod.mk.injEq .. ▸ h1
        refine ⟨0, L1, by rw [Nat.add_zero]; exact hg, hL1pos, by omega, ?_, Or.inl rfl, ?_⟩
        · intro j hj
          rw [Nat.zero_add, hall j hj, hk]
        · rcases hbound with h | h
          · exact Or.inl (by omega)
          · refine Or.inr ?_
            rw [Nat.zero_add, h, hk]
      · have hrec := groupIdx_mem_iff (List.drop L1 (b :: bs)) (i + L1) k g
        obtain ⟨a2, L, hg, hmr2⟩ := hrec.mp h2
        refine ⟨L1 + a2, L, ?_, MaxRun_drop (b :: bs) b k L1 a2 L hL1le hall hbound hmr2⟩
        rw [hg]
        congr 1
        omega
    · rintro ⟨a, L, hg, hmr⟩
      obtain ⟨hpos, hlen, hkey, hleft, hright⟩ := hmr
      by_cases ha : a < L1
      · refine Or.inl ?_
        have hk : k = b := by
          have h1 := hkey 0 hpos
          rw [Nat.add_zero] at h1
          have h2 := hall a ha
          rw [h1] at h2
          exact Option.some.inj h2
        have ha0 : a = 0 := by
          cases a with
          | zero => rfl
          | succ a2 =>
            rcases hleft with h | h
            · omega
            · have h2 := hall (a2 + 1 - 1) (by omega)
              rw [h] at h2
              have := Option.some.inj h2
              subst hk
              simp at this
        subst ha0
        have hLL1 : L = L1 := by
          rcases Nat.lt_trichotomy L L1 with hlt | heq2 | hgt
          · exfalso
            rcases hright with h | h
            · rw [Nat.zero_add] at h
              omega
            · have h2 := hall L (by omega)
              rw [Nat.zero_add] at h
              rw [h] at h2
              have := Option.some.inj h2
              subst hk
              simp at this
          · exact heq2
          · exfalso
            have h1 := hkey L1 hgt
            rw [Nat.zero_add] at h1
            rcases hbound with h | h
            · rw [Nat.zero_add] at hlen
              omega
            · rw [h] at h1
              have := Option.some.inj h1
              subst hk
              simp at this
        subst hLL1
        subst hk
        rw [Nat.add_zero] at hg
        rw [hg]
      · push_neg at ha
        refine Or.inr ?_
        have hmr2 : MaxRun (List.drop L1 (b :: bs)) k (a - L1) L := by
          refine MaxRun_drop_rev (b :: bs) k L1 (a - L1) L hL1le ?_
          rw [show L1 + (a - L1) = a by omega]
          exact ⟨hpos, hlen, hkey, hleft, hright⟩
        have hrec := groupIdx_mem_iff (List.drop L1 (b :: bs)) (i + L1) k g
        refine hrec.mpr ⟨a - L1, L, ?_, hmr2⟩
        rw [hg]
        congr 1
        omega
termination_by keys.length
decreasing_by
  all_goals rw [List.length_drop]
  all_goals simp only [List.length_cons]
  all_goals omega

/-- The groups of `groupIdx` flatten back to the full index sequence
`i, i+1, ..., i + keys.length - 1`: the grouping is a partition. -/
theorem groupIdx_bind (ks : List Bool) (i : ℕ) :
    (groupIdx ks i).bind Prod.snd = List.range' i ks.length := by
  induction ks generalizing i with
  | nil => rfl
  | cons b bs ih =>
    have key : (groupIdx (b :: bs) i).bind Prod.snd =
        i :: (groupIdx bs (i + 1)).bind Prod.snd := by
      rw [groupIdx_cons]
      cases h : groupIdx bs (i + 1) with
      | nil => simp
      | cons q rest =>
        obtain ⟨k, g⟩ := q
        by_cases hbk : b = k
        · simp [hbk]
        · simp [hbk]
    rw [key, ih, List.length_cons, List.range'_succ]

/-- Later groups hold strictly larger indices than earlier groups: the
retained runs are ordered by starting index. -/
theorem groupIdx_pairwise (ks : List Bool) (i : ℕ) :
    (groupIdx ks i).Pairwise fun q r => ∀ x ∈ q.2, ∀ y ∈ r.2, x < y := by
  cases ks with
  | nil => exact List.Pairwise.nil
  | cons b bs =>
    obtain ⟨L1, hL1pos, hL1le, heq, hall, hbound⟩ := groupIdx_first bs b i
    rw [heq]
    refine List.Pairwise.cons ?_ (groupIdx_pairwise (List.drop L1 (b :: bs)) (i + L1))
    intro q hq x hx y hy
    have hx2 : x < i + L1 := by
      rw [List.mem_range'_1] at hx
      omega
    have hy2 : y ∈ (groupIdx (List.drop L1 (b :: bs)) (i + L1)).bind Prod.snd :=
      List.mem_bind.mpr ⟨q, hq, hy⟩
    rw [groupIdx_bind, List.mem_range'_1] at hy2
    omega
termination_by ks.length
decreasing_by
  rw [List.length_drop]
  simp only [List.length_cons]
  omega

/-- Membership in one direction of the detector: the run is a group with key
`true` whose length is strictly greater than `num_consec`. -/
theorem sigRuns_mem (arr : List ℚ) (nc : ℕ) (thr : ℚ) (g : List ℕ) :
    g ∈ sigRuns arr nc thr ↔
      (true, g) ∈ groupIdx (arr.map fun x => decide (thr < x)) 0 ∧
        nc < g.length := by
  unfold sigRuns
  rw [List.mem_map]
  constructor
  · rintro ⟨⟨k, g2⟩, hmem, rfl⟩
    rw [List.mem_filter] at hmem
    obtain ⟨hmem, hpred⟩ := hmem
    simp only [Bool.and_eq_true, decide_eq_true_eq] at hpred
    obtain ⟨hk, hlen⟩ := hpred
    subst hk
    exact ⟨hmem, hlen⟩
  · rintro ⟨hmem, hlen⟩
    refine ⟨(true, g), List.mem_filter.mpr ⟨hmem, ?_⟩, rfl⟩
    simp only [Bool.and_eq_true, decide_eq_true_eq]
    exact ⟨by simp, hlen⟩

/-- The sign-inverted upper-bound keys coincide with the direct predicate
`-ci_upper[i] > threshold`. -/
theorem upperKeys_eq (up : List ℚ) (thr : ℚ) :
    (up.map fun x => -x).map (fun x => decide (thr < x)) =
      up.map fun x => decide (thr < -x) := by
  rw [List.map_map]
  rfl

/-- A nonempty contiguous run determines its start and length. -/
theorem range'_inj (a a2 L L2 : ℕ) (hL : 0 < L)
    (h : List.range' a L = List.range' a2 L2) : a = a2 ∧ L = L2 := by
  have hlen : L = L2 := by
    have h2 := congrArg List.length h
    simpa using h2
  subst hlen
  cases L with
  | zero => omega
  | succ n =>
    rw [List.range'_succ, List.range'_succ] at h
    injection h with h1 h2
    exact ⟨h1, rfl⟩

/-- Characterisation of one detector direction on contiguous runs. -/
theorem sigRuns_range'_mem (arr : List ℚ) (nc : ℕ) (thr : ℚ) (a len : ℕ) :
    List.range' a len ∈ sigRuns arr nc thr ↔
      MaxRun (arr.map fun x => decide (thr < x)) true a len ∧ nc < len := by
  rw [sigRuns_mem, groupIdx_mem_iff, List.length_range']
  constructor
  · rintro ⟨⟨a2, L2, hg, hmr⟩, hlen⟩
    have hpos : 0 < len := by omega
    obtain ⟨ha, hL⟩ := range'_inj a (0 + a2) len L2 hpos hg
    subst hL
    rw [Nat.zero_add] at ha
    subst ha
    exact ⟨hmr, hlen⟩
  · rintro ⟨hmr, hlen⟩
    exact ⟨⟨a, len, by rw [Nat.zero_add], hmr⟩, hlen⟩

/-- Every index of a retained run satisfies the strict threshold predicate
on the underlying array. -/
theorem sigRuns_pred (arr : List ℚ) (nc : ℕ) (thr : ℚ) (g : List ℕ)
    (hg : g ∈ sigRuns arr nc thr) :
    ∀ i ∈ g, ∃ x, arr.get? i = some x ∧ thr < x := by
  intro i hi
  obtain ⟨hmem, hlen⟩ := (sigRuns_mem arr nc thr g).mp hg
  obtain ⟨a2, L2, hgeq, hmr⟩ := (groupIdx_mem_iff _ 0 true g).mp hmem
  obtain ⟨hpos, hlenk, hkey, -, -⟩ := hmr
  subst hgeq
  rw [List.mem_range'_1] at hi
  have hki := hkey (i - (0 + a2)) (by omega)
  rw [show a2 + (i - (0 + a2)) = i by omega] at hki
  rw [List.get?_map] at hki
  cases harr : arr.get? i with
  | none =>
    rw [harr] at hki
    rw [Option.map_none'] at hki
    exact Option.noConfusion hki
  | some x =>
    rw [harr] at hki
    rw [Option.map_some'] at hki
    simp only [Option.some.injEq, decide_eq_true_eq] at hki
    exact ⟨x, rfl, hki⟩

/-- Every retained run is a nonempty contiguous increasing index block. -/
theorem sigRuns_contig (arr : List ℚ) (nc : ℕ) (thr : ℚ) (g : List ℕ)
    (hg : g ∈ sigRuns arr nc thr) :
    ∃ a len, 0 < len ∧ g = List.range' a len := by
  obtain ⟨hmem, hlen⟩ := (sigRuns_mem arr nc thr g).mp hg
  obtain ⟨a2, L2, hgeq, hmr⟩ := (groupIdx_mem_iff _ 0 true g).mp hmem
  exact ⟨0 + a2, L2, hmr.1, hgeq⟩

/-- Retained runs appear in increasing index order. -/
theorem sigRuns_pairwise (arr : List ℚ) (nc : ℕ) (thr : ℚ) :
    (sigRuns arr nc thr).Pairwise fun g h => ∀ x ∈ g, ∀ y ∈ h, x < y := by
  unfold sigRuns
  refine List.Pairwise.map Prod.snd (fun q r hqr => hqr) ?_
  exact (groupIdx_pairwise _ 0).filter _

/-! ### C3: the strict run-length filter -/

/-- C3: the detector retains a maximal run (for either bound) iff its
predicate value is true and its length is strictly greater than
`num_consec`; in particular a true run of exactly `num_consec` indices is
excluded while one of `num_consec + 1` indices is included. -/
theorem claim_C3 (lo up : List ℚ) (thr : ℚ) (nc a len : ℕ) :
    (List.range' a len ∈ (get_sig_events lo up nc thr).1 ↔
      MaxRun (lo.map fun x => decide (thr < x)) true a len ∧ nc < len) ∧
    (List.range' a len ∈ (get_sig_events lo up nc thr).2 ↔
      MaxRun (up.map fun x => decide (thr < -x)) true a len ∧ nc < len) := by
  constructor
  · exact sigRuns_range'_mem lo nc thr a len
  · have h := sigRuns_range'_mem (up.map fun x => -x) nc thr a len
    rwa [upperKeys_eq] at h

/-! ### C4: predicates, partition, contiguity and ordering -/

/-- C4: the detector keys the `"lower"` direction by `ci_lower[i] > thr` and
the `"upper"` direction by `-ci_upper[i] > thr`; the grouping partitions the
index sequence `0..p-1` into maximal runs (their concatenation is exactly
`range p`); every retained run satisfies its predicate at each index, is a
nonempty contiguous increasing block, and the retained runs are mutually
ordered by (starting) index. -/
theorem claim_C4 (lo up : List ℚ) (thr : ℚ) (nc : ℕ) :
    ((groupIdx (lo.map fun x => decide (thr < x)) 0).bind Prod.snd =
      List.range lo.length) ∧
    ((groupIdx (up.map fun x => decide (thr < -x)) 0).bind Prod.snd =
      List.range up.length) ∧
    (∀ g ∈ (get_sig_events lo up nc thr).1, ∀ i ∈ g,
      ∃ x, lo.get? i = some x ∧ thr < x) ∧
    (∀ g ∈ (get_sig_events lo up nc thr).2, ∀ i ∈ g,
      ∃ x, up.get? i = some x ∧ thr < -x) ∧
    (∀ g ∈ (get_sig_events lo up nc thr).1,
      ∃ a len, 0 < len ∧ g = List.range' a len) ∧
    (∀ g ∈ (get_sig_events lo up nc thr).2,
      ∃ a len, 0 < len ∧ g = List.range' a len) ∧
    ((get_sig_events lo up nc thr).1.Pairwise fun g h =>
      ∀ x ∈ g, ∀ y ∈ h, x < y) ∧
    ((get_sig_events lo up nc thr).2.Pairwise fun g h =>
      ∀ x ∈ g, ∀ y ∈ h, x < y) := by
  refine ⟨?_, ?_, ?_, ?_, ?_, ?_, ?_, ?_⟩
  · rw [groupIdx_bind, List.length_map, List.range_eq_range']
  · rw [groupIdx_bind, List.length_map, List.range_eq_range']
  · exact fun g hg => sigRuns_pred lo nc thr g hg
  · intro g hg i hi
    obtain ⟨x, hx, hthr⟩ := sigRuns_pred (up.map fun v => -v) nc thr g hg i hi
    rw [List.get?_map] at hx
    cases hup : up.get? i with
    | none =>
      rw [hup] at hx
      rw [Option.map_none'] at hx
      exact Option.noConfusion hx
    | some y =>
      rw [hup] at hx
      rw [Option.map_some'] at hx
      simp only [Option.some.injEq] at hx
      subst hx
      exact ⟨y, rfl, hthr⟩
  · exact fun g hg => sigRuns_contig lo nc thr g hg
  · exact fun g hg => sigRuns_contig (up.map fun v => -v) nc thr g hg
  · exact sigRuns_pairwise lo nc thr
  · exact sigRuns_pairwise (up.map fun v => -v) nc thr

end BootCI
